import Mathlib

/-!
Shallow embedding of the "Magma" (GOST R 34.12-2015) block-cipher crate.

The Rust sources embedded here are:
* `src/src/lib.rs` — the cipher engine (`Magma` struct, key schedule,
  transformations `t`, `g`, `G`, 32-round `encrypt`/`decrypt`, ECB, MAC,
  dispatch `cipher`);
* `src/cipher_magma/src/ciphers/ctr.rs` — CTR mode;
* `src/cipher_magma/src/magma/cipher_mode/cfb.rs` — CFB mode.

Machine integers are modelled as `Nat` with explicit `% 2 ^ w` at the points
where Rust wraps or truncates.  Rust panics (`panic!`, `assert!`,
`Option::unwrap` on `None`) are modelled as `Option.none`; a normal return is
`Option.some`.
-/

/-- State of the cipher engine.  `cipher_key`, `round_keys` and
`substitution_box` are the fields of `struct Magma` in `src/src/lib.rs`
(lists of 32-bit words, 32-bit words, and bytes respectively).  The `iv`
field (a sequence of 64-bit blocks) is the field used by the CFB/CTR mode
files (`core.iv` in `cfb.rs`) and described by the spec's data model. -/
structure Magma where
  cipher_key : List Nat
  round_keys : List Nat
  substitution_box : List Nat
  iv : List Nat

/-- `CipherOperation` enum of `src/src/lib.rs`. -/
inductive CipherOperation where
  | Encrypt
  | Decrypt
  | MessageAuthentication

/-- `CipherMode` enum of `src/src/lib.rs` (only ECB and MAC are present
there; CTR/OFB/CBC/CFB are commented out). -/
inductive CipherMode where
  | ECB
  | MAC

/-- `Magma::SUBSTITUTION_BOX_RFC7836` from `src/src/lib.rs`. -/
def SUBSTITUTION_BOX_RFC7836 : List Nat := [
  0xC, 0x4, 0x6, 0x2, 0xA, 0x5, 0xB, 0x9, 0xE, 0x8, 0xD, 0x7, 0x0, 0x3, 0xF, 0x1,
  0x6, 0x8, 0x2, 0x3, 0x9, 0xA, 0x5, 0xC, 0x1, 0xE, 0x4, 0x7, 0xB, 0xD, 0x0, 0xF,
  0xB, 0x3, 0x5, 0x8, 0x2, 0xF, 0xA, 0xD, 0xE, 0x1, 0x7, 0x4, 0xC, 0x9, 0x6, 0x0,
  0xC, 0x8, 0x2, 0x1, 0xD, 0x4, 0xF, 0x6, 0x7, 0x0, 0xA, 0x5, 0x3, 0xE, 0x9, 0xB,
  0x7, 0xF, 0x5, 0xA, 0x8, 0x1, 0x6, 0xD, 0x0, 0x9, 0x3, 0xE, 0xB, 0x4, 0x2, 0xC,
  0x5, 0xD, 0xF, 0x6, 0x9, 0x2, 0xC, 0xA, 0xB, 0x7, 0x8, 0x1, 0x4, 0x3, 0xE, 0x0,
  0x8, 0xE, 0x2, 0x5, 0x6, 0x9, 0x1, 0xC, 0xF, 0x4, 0xB, 0x0, 0xD, 0xA, 0x3, 0x7,
  0x1, 0x7, 0xE, 0xD, 0x0, 0x5, 0x8, 0x3, 0x4, 0xF, 0xA, 0x6, 0x9, 0xC, 0xB, 0x2]

/-- `Magma::SUBSTITUTION_BOX_RFC5831` from `src/src/lib.rs`. -/
def SUBSTITUTION_BOX_RFC5831 : List Nat := [
  0x4, 0xA, 0x9, 0x2, 0xD, 0x8, 0x0, 0xE, 0x6, 0xB, 0x1, 0xC, 0x7, 0xF, 0x5, 0x3,
  0xE, 0xB, 0x4, 0xC, 0x6, 0xD, 0xF, 0xA, 0x2, 0x3, 0x8, 0x1, 0x0, 0x7, 0x5, 0x9,
  0x5, 0x8, 0x1, 0xD, 0xA, 0x3, 0x4, 0x2, 0xE, 0xF, 0xC, 0x7, 0x6, 0x0, 0x9, 0xB,
  0x7, 0xD, 0xA, 0x1, 0x0, 0x8, 0x9, 0xF, 0xE, 0x4, 0x6, 0xC, 0xB, 0x2, 0x5, 0x3,
  0x6, 0xC, 0x7, 0x1, 0x5, 0xF, 0xD, 0x8, 0x4, 0xA, 0x9, 0xE, 0x0, 0x3, 0xB, 0x2,
  0x4, 0xB, 0xA, 0x0, 0x7, 0x2, 0x1, 0xD, 0x3, 0x6, 0x8, 0x5, 0x9, 0xC, 0xF, 0xE,
  0xD, 0xB, 0x4, 0x1, 0x3, 0xF, 0x5, 0x9, 0x0, 0xA, 0xE, 0x7, 0x6, 0x8, 0x2, 0xC,
  0x1, 0xF, 0xD, 0x0, 0x5, 0x7, 0xA, 0x4, 0x9, 0x2, 0x3, 0xE, 0x6, 0xB, 0x8, 0xC]

/-- `Magma::new()`: zero key, zero round keys, RFC7836 substitution box.
The `iv` field starts empty (modelled from the spec's data model: the IV is
"empty until explicitly set"; `Magma::new` in `src/src/lib.rs` has no IV). -/
def Magma.new : Magma :=
  { cipher_key := List.replicate 8 0
    round_keys := List.replicate 32 0
    substitution_box := SUBSTITUTION_BOX_RFC7836
    iv := [] }

/-- `ROUND_KEY_POSITION` constant inside `Magma::prepare_round_keys`. -/
def ROUND_KEY_POSITION : List Nat :=
  [0, 1, 2, 3, 4, 5, 6, 7,
   0, 1, 2, 3, 4, 5, 6, 7,
   0, 1, 2, 3, 4, 5, 6, 7,
   7, 6, 5, 4, 3, 2, 1, 0]

/-- `Magma::prepare_round_keys`: `round_keys[index] =
cipher_key[ROUND_KEY_POSITION[index]]` for `index` in `0..32`. -/
def prepare_round_keys (m : Magma) : Magma :=
  { m with round_keys := ROUND_KEY_POSITION.map (fun p => m.cipher_key.getD p 0) }

/-- `Magma::set_key`: store the key and immediately recompute round keys. -/
def set_key (m : Magma) (cipher_key : List Nat) : Magma :=
  prepare_round_keys { m with cipher_key := cipher_key }

/-- `Magma::with_key`: `Magma::new()` followed by `set_key`. -/
def with_key (cipher_key : List Nat) : Magma :=
  set_key Magma.new cipher_key

/-- `Magma::set_substitution_box`. -/
def set_substitution_box (m : Magma) (substitution_box : List Nat) : Magma :=
  { m with substitution_box := substitution_box }

/-- Modelled from the spec: `set_iv(sequence of 64-bit blocks)` "stores IV
for CFB/CTR use"; the implementation of `set_iv` is not under `src/`
(only its caller `cfb.rs` reads `core.iv`). -/
def set_iv (m : Magma) (iv : List Nat) : Magma :=
  { m with iv := iv }

/-- Split a list into chunks of (at most) 8 elements, mirroring Rust's
`slice::chunks(8)`: every chunk has 8 elements except possibly the last,
which is nonempty. -/
def chunks8 {α : Type} : List α → List (List α)
  | [] => []
  | a1 :: a2 :: a3 :: a4 :: a5 :: a6 :: a7 :: a8 :: rest =>
      [a1, a2, a3, a4, a5, a6, a7, a8] :: chunks8 rest
  | l => [l]

/-- Split a list into chunks of (at most) 4 elements, mirroring Rust's
`slice::chunks(4)` (used by `set_key_from_bytes`). -/
def chunks4 {α : Type} : List α → List (List α)
  | [] => []
  | a1 :: a2 :: a3 :: a4 :: rest => [a1, a2, a3, a4] :: chunks4 rest
  | l => [l]

/-- Big-endian value of a byte list (`uN::from_be_bytes`). -/
def from_be_bytes (bytes : List Nat) : Nat :=
  bytes.foldl (fun acc b => acc * 256 + b) 0

/-- The 64-bit block read from a chunk of at most 8 bytes: the chunk is
copied into a zero-initialised 8-byte array and decoded big-endian, so a
short chunk is zero-padded at the low-order end.  This is the
`array_u8`/`from_be_bytes` idiom used by `cipher_ecb`, `cipher_mac`,
`cipher_ctr` and the CFB functions. -/
def padded_be_u64 (chunk : List Nat) : Nat :=
  from_be_bytes (chunk ++ List.replicate (8 - chunk.length) 0)

/-- `u64::to_be_bytes`: the 8 big-endian bytes of a 64-bit value. -/
def to_be_bytes (x : Nat) : List Nat :=
  [x >>> 56 &&& 255, x >>> 48 &&& 255, x >>> 40 &&& 255, x >>> 32 &&& 255,
   x >>> 24 &&& 255, x >>> 16 &&& 255, x >>> 8 &&& 255, x &&& 255]

/-- `u32::to_be_bytes`: the 4 big-endian bytes of a 32-bit value (used by
`cipher` to serialise the MAC tag). -/
def u32_to_be_bytes (x : Nat) : List Nat :=
  [x >>> 24 &&& 255, x >>> 16 &&& 255, x >>> 8 &&& 255, x &&& 255]

/-- `Magma::set_key_from_bytes`: `assert!(len == 32)` (a panic, modelled as
`none`), then each 4-byte chunk is decoded big-endian into a key word and
the round keys are recomputed. -/
def set_key_from_bytes (m : Magma) (cipher_key_bytes : List Nat) : Option Magma :=
  if cipher_key_bytes.length = 32 then
    some (prepare_round_keys
      { m with cipher_key := (chunks4 cipher_key_bytes).map from_be_bytes })
  else
    none

/-- `Magma::transformation_t`: for `i` in `0..8`, extract the `i`-th
low-order nibble of `a`, substitute it through sub-table `i` of the
substitution box, and OR it back at the same position.  The `% 2 ^ 32`
models the u32 left shift discarding high bits. -/
def transformation_t (m : Magma) (a : Nat) : Nat :=
  (List.range 8).foldl
    (fun res i =>
      res ||| ((m.substitution_box.getD (i * 16 + ((a >>> (4 * i)) &&& 0xF)) 0
                <<< (4 * i)) % 2 ^ 32))
    0

/-- `u32::rotate_left`: `(x << n | x >> (32 - n))` with the shift truncated
to 32 bits. -/
def rotateLeft32 (x n : Nat) : Nat :=
  ((x <<< n) % 2 ^ 32) ||| (x >>> (32 - n))

/-- `Magma::transformation_g`: `t((k + a) as u32).rotate_left(11)`; the
addition is performed in u64 and truncated, i.e. it wraps modulo `2 ^ 32`. -/
def transformation_g (m : Magma) (k a : Nat) : Nat :=
  rotateLeft32 (transformation_t m ((k + a) % 2 ^ 32)) 11

/-- `Magma::transformation_big_g`: `(a_0, g(k, a_0) ^ a_1)`. -/
def transformation_big_g (m : Magma) (k a_1 a_0 : Nat) : Nat × Nat :=
  (a_0, transformation_g m k a_0 ^^^ a_1)

/-- `Magma::u64_split`: `((a >> 32) as u32, a as u32)`. -/
def u64_split (a : Nat) : Nat × Nat :=
  ((a >>> 32) % 2 ^ 32, a % 2 ^ 32)

/-- `Magma::u64_join`: `((a_0 as u64) << 32) | (a_1 as u64)` — note that the
first argument lands in the LOW 32 bits and the second in the HIGH 32 bits. -/
def u64_join (a_1 a_0 : Nat) : Nat :=
  (a_0 <<< 32) ||| a_1

/-- The round loop shared by `encrypt` and `decrypt`: fold
`transformation_big_g` over a list of round keys, starting from a pair of
32-bit halves. -/
def feistel_rounds (m : Magma) (keys : List Nat) (p : Nat × Nat) : Nat × Nat :=
  keys.foldl (fun st k => transformation_big_g m k st.1 st.2) p

/-- `Magma::encrypt`: split, 32 `transformation_big_g` rounds over
`round_keys[0..32]` in ascending order, join. -/
def encrypt (m : Magma) (block_in : Nat) : Nat :=
  let p := feistel_rounds m m.round_keys (u64_split block_in)
  u64_join p.1 p.2

/-- `Magma::decrypt`: split, 32 `transformation_big_g` rounds over the round
keys in descending index order (`round = 31` down to `0`), join. -/
def decrypt (m : Magma) (block_in : Nat) : Nat :=
  let p := feistel_rounds m m.round_keys.reverse (u64_split block_in)
  u64_join p.1 p.2

/-- `Magma::cipher_ecb`: every chunk (the short final chunk zero-padded on
read) is transformed and the full 8-byte big-endian result appended. -/
def cipher_ecb (m : Magma) (m_invoke : Magma → Nat → Nat) (buf : List Nat) : List Nat :=
  ((chunks8 buf).map (fun chunk => to_be_bytes (m_invoke m (padded_be_u64 chunk)))).flatten

/-- `Magma::generate_cmac_subkeys`: `r = encrypt(0)`; `k1 = r << 1`, XOR
`0x1b` if the top bit of `r` is set; `k2` likewise from `k1`.  The u64 left
shift wraps (drops the top bit), hence `% 2 ^ 64`. -/
def generate_cmac_subkeys (m : Magma) : Nat × Nat :=
  let r := encrypt m 0
  let k1 := if r &&& 0x8000000000000000 = 0
            then (r <<< 1) % 2 ^ 64
            else ((r <<< 1) % 2 ^ 64) ^^^ 0x1b
  let k2 := if k1 &&& 0x8000000000000000 = 0
            then (k1 <<< 1) % 2 ^ 64
            else ((k1 <<< 1) % 2 ^ 64) ^^^ 0x1b
  (k1, k2)

/-- The last-chunk block of `cipher_mac`: the zero-initialised 8-byte array
holds the chunk; if the chunk is shorter than 8 bytes, the byte right after
it is set to `0x80` (the remaining bytes stay `0x00`). -/
def mac_last_block (chunk : List Nat) : Nat :=
  if chunk.length < 8 then
    from_be_bytes (chunk ++ 0x80 :: List.replicate (7 - chunk.length) 0)
  else
    padded_be_u64 chunk

/-- The chunk loop of `Magma::cipher_mac` (the `while let` over a peekable
chunk iterator): every chunk but the last is XORed with the running
feedback and encrypted; the last chunk is padded if short, XORed with the
feedback AND the selected subkey, and encrypted. -/
def mac_go (m : Magma) (k_n : Nat) : List (List Nat) → Nat → Nat
  | [], block_feedback => block_feedback
  | [chunk], block_feedback =>
      encrypt m (mac_last_block chunk ^^^ block_feedback ^^^ k_n)
  | chunk :: next :: rest, block_feedback =>
      mac_go m k_n (next :: rest) (encrypt m (padded_be_u64 chunk ^^^ block_feedback))

/-- `Magma::cipher_mac`: subkey selection on `len % 8`, the chunk loop
starting from feedback `0`, and the tag is the first (high) component of
`u64_split` of the final feedback. -/
def cipher_mac (m : Magma) (msg_buf : List Nat) : Nat :=
  let ks := generate_cmac_subkeys m
  let k_n := if msg_buf.length % 8 = 0 then ks.1 else ks.2
  (u64_split (mac_go m k_n (chunks8 msg_buf) 0)).1

/-- `Magma::cipher` dispatch: the three `panic!` arms (Encrypt/MAC,
Decrypt/MAC, MessageAuthentication with a non-MAC mode) are modelled as
`none`. -/
def cipher (m : Magma) (buf : List Nat) (cipher_operation : CipherOperation)
    (cipher_mode : CipherMode) : Option (List Nat) :=
  match cipher_operation, cipher_mode with
  | .Encrypt, .ECB => some (cipher_ecb m encrypt buf)
  | .Encrypt, .MAC => none
  | .Decrypt, .ECB => some (cipher_ecb m decrypt buf)
  | .Decrypt, .MAC => none
  | .MessageAuthentication, .MAC => some (u32_to_be_bytes (cipher_mac m buf))
  | .MessageAuthentication, .ECB => none

/-- Modelled from the spec: `prepare_vector_ctr` ("prepare counter vector")
derives one 64-bit counter seed from the IV by a fixed transform; its
implementation is not under `src/` (only its caller `ctr.rs` is).  Modelled
as reading the first IV block. -/
def prepare_vector_ctr (m : Magma) : Nat :=
  m.iv.headD 0

/-- The chunk loop of `CTR::cipher_ctr` (`ctr.rs`): for the chunk at index
`chunk_index`, the keystream block is `encrypt(iv_ctr.wrapping_add(index))`
and only `chunk.len()` bytes of `gamma ^ block` are emitted. -/
def ctr_go (m : Magma) (iv_ctr : Nat) : Nat → List (List Nat) → List Nat
  | _, [] => []
  | chunk_index, chunk :: rest =>
      (to_be_bytes (encrypt m ((iv_ctr + chunk_index) % 2 ^ 64) ^^^ padded_be_u64 chunk)).take
          chunk.length
        ++ ctr_go m iv_ctr (chunk_index + 1) rest

/-- `CTR::cipher_ctr` from `ctr.rs` (both `CTR::encrypt` and `CTR::decrypt`
delegate to it). -/
def cipher_ctr (m : Magma) (buf : List Nat) : List Nat :=
  ctr_go m (prepare_vector_ctr m) 0 (chunks8 buf)

/-- The chunk loop of `cfb::encrypt` (`cfb.rs`): pop the front of the shift
register, `output = encrypt(front) ^ block`, push the OUTPUT block to the
back, emit `chunk.len()` bytes of the output.  `pop_front().unwrap()` on an
empty register is a panic, modelled as `none`. -/
def cfb_encrypt_blocks (m : Magma) : List (List Nat) → List Nat → Option (List Nat)
  | [], _ => some []
  | _ :: _, [] => none
  | chunk :: rest, front :: register_tail =>
      let output := encrypt m front ^^^ padded_be_u64 chunk
      (cfb_encrypt_blocks m rest (register_tail ++ [output])).map
        (fun tail => (to_be_bytes output).take chunk.length ++ tail)

/-- The chunk loop of `cfb::decrypt` (`cfb.rs`): identical to encryption
except that the INPUT (ciphertext) block is pushed to the back of the
register. -/
def cfb_decrypt_blocks (m : Magma) : List (List Nat) → List Nat → Option (List Nat)
  | [], _ => some []
  | _ :: _, [] => none
  | chunk :: rest, front :: register_tail =>
      let block := padded_be_u64 chunk
      let output := encrypt m front ^^^ block
      (cfb_decrypt_blocks m rest (register_tail ++ [block])).map
        (fun tail => (to_be_bytes output).take chunk.length ++ tail)

/-- `cfb::encrypt`: `ensure_iv_not_empty` (modelled from the spec: CFB with
an empty IV is a precondition violation that aborts, the helper itself is
not under `src/`), then the register is seeded with the IV blocks and the
chunk loop runs. -/
def cfb_encrypt (m : Magma) (buf : List Nat) : Option (List Nat) :=
  if m.iv = [] then none else cfb_encrypt_blocks m (chunks8 buf) m.iv

/-- `cfb::decrypt`: same seeding, decryption chunk loop. -/
def cfb_decrypt (m : Magma) (buf : List Nat) : Option (List Nat) :=
  if m.iv = [] then none else cfb_decrypt_blocks m (chunks8 buf) m.iv

/-- The RFC 8891 / GOST R 34.13-2015 test key used by the repository's test
suite and quoted by the spec's "Concrete vectors" bullet. -/
def CIPHER_KEY_RFC8891 : List Nat :=
  [0xffeeddcc, 0xbbaa9988, 0x77665544, 0x33221100,
   0xf0f1f2f3, 0xf4f5f6f7, 0xf8f9fafb, 0xfcfdfeff]

/-! ### Arithmetic helper lemmas -/

theorem shiftLeft_or_eq_add (a b n : Nat) (hb : b < 2 ^ n) :
    (a <<< n) ||| b = 2 ^ n * a + b := by
  rw [Nat.shiftLeft_eq, Nat.mul_comm]
  exact (Nat.mul_add_lt_is_or hb a).symm

theorem u64_split_u64_join (a_1 a_0 : Nat) (h1 : a_1 < 2 ^ 32) (h0 : a_0 < 2 ^ 32) :
    u64_split (u64_join a_1 a_0) = (a_0, a_1) := by
  simp only [u64_split, u64_join, shiftLeft_or_eq_add a_0 a_1 32 h1,
    Nat.shiftRight_eq_div_pow, Prod.mk.injEq]
  constructor <;> omega

theorem u64_join_split (b : Nat) (hb : b < 2 ^ 64) :
    u64_join (u64_split b).2 (u64_split b).1 = b := by
  have h2 : (u64_split b).2 < 2 ^ 32 := Nat.mod_lt _ (by norm_num)
  simp only [u64_split, u64_join] at h2 ⊢
  rw [shiftLeft_or_eq_add _ _ 32 h2, Nat.shiftRight_eq_div_pow]
  have h64 : (2 : Nat) ^ 64 = 2 ^ 32 * 2 ^ 32 := by norm_num
  omega

/-! ### The Feistel network inverts itself on reversed keys -/

theorem big_g_cancel (m : Magma) (k : Nat) (p : Nat × Nat) :
    transformation_big_g m k (transformation_big_g m k p.1 p.2).2
      (transformation_big_g m k p.1 p.2).1 = (p.2, p.1) := by
  simp only [transformation_big_g, Prod.mk.injEq]
  refine ⟨trivial, ?_⟩
  rw [← Nat.xor_assoc, Nat.xor_self, Nat.zero_xor]

theorem feistel_rounds_append (m : Magma) (l1 l2 : List Nat) (p : Nat × Nat) :
    feistel_rounds m (l1 ++ l2) p = feistel_rounds m l2 (feistel_rounds m l1 p) := by
  simp [feistel_rounds, List.foldl_append]

theorem feistel_rounds_reverse (m : Magma) :
    ∀ (keys : List Nat) (p : Nat × Nat),
      feistel_rounds m keys.reverse
        ((feistel_rounds m keys p).2, (feistel_rounds m keys p).1) = (p.2, p.1) := by
  intro keys
  induction keys with
  | nil => intro p; simp [feistel_rounds]
  | cons k ks ih =>
    intro p
    have h1 : feistel_rounds m (k :: ks) p =
        feistel_rounds m ks (transformation_big_g m k p.1 p.2) := rfl
    have h2 : feistel_rounds m [k] ((transformation_big_g m k p.1 p.2).2,
          (transformation_big_g m k p.1 p.2).1) =
        transformation_big_g m k (transformation_big_g m k p.1 p.2).2
          (transformation_big_g m k p.1 p.2).1 := rfl
    rw [List.reverse_cons, feistel_rounds_append, h1, ih, h2, big_g_cancel]

/-! ### Everything in the round pipeline stays below `2 ^ 32` -/

theorem transformation_t_lt (m : Magma) (a : Nat) : transformation_t m a < 2 ^ 32 := by
  have h : ∀ (l : List Nat) (res : Nat), res < 2 ^ 32 →
      l.foldl (fun r i =>
        r ||| ((m.substitution_box.getD (i * 16 + ((a >>> (4 * i)) &&& 0xF)) 0
          <<< (4 * i)) % 2 ^ 32)) res < 2 ^ 32 := by
    intro l
    induction l with
    | nil => intro res hres; exact hres
    | cons i is ih =>
      intro res hres
      exact ih _ (Nat.or_lt_two_pow hres (Nat.mod_lt _ (by norm_num)))
  exact h (List.range 8) 0 (by norm_num)

theorem transformation_g_lt (m : Magma) (k a : Nat) : transformation_g m k a < 2 ^ 32 := by
  unfold transformation_g rotateLeft32
  apply Nat.or_lt_two_pow (Nat.mod_lt _ (by norm_num))
  calc transformation_t m ((k + a) % 2 ^ 32) >>> (32 - 11)
      ≤ transformation_t m ((k + a) % 2 ^ 32) := by
        rw [Nat.shiftRight_eq_div_pow]; exact Nat.div_le_self _ _
    _ < 2 ^ 32 := transformation_t_lt m _

theorem feistel_rounds_lt (m : Magma) :
    ∀ (keys : List Nat) (p : Nat × Nat), p.1 < 2 ^ 32 → p.2 < 2 ^ 32 →
      (feistel_rounds m keys p).1 < 2 ^ 32 ∧ (feistel_rounds m keys p).2 < 2 ^ 32 := by
  intro keys
  induction keys with
  | nil => intro p h1 h2; exact ⟨h1, h2⟩
  | cons k ks ih =>
    intro p h1 h2
    have hstep : feistel_rounds m (k :: ks) p =
        feistel_rounds m ks (transformation_big_g m k p.1 p.2) := rfl
    rw [hstep]
    exact ih _ h2 (Nat.xor_lt_two_pow (transformation_g_lt m k p.2) h1)

/-- Round-trip of the block engine, for an arbitrary engine state: `decrypt`
folds the same round keys in reverse order, which undoes `encrypt`. -/
theorem decrypt_encrypt (m : Magma) (b : Nat) (hb : b < 2 ^ 64) :
    decrypt m (encrypt m b) = b := by
  have hs1 : (u64_split b).1 < 2 ^ 32 := Nat.mod_lt _ (by norm_num)
  have hs2 : (u64_split b).2 < 2 ^ 32 := Nat.mod_lt _ (by norm_num)
  have hq := feistel_rounds_lt m m.round_keys (u64_split b) hs1 hs2
  unfold decrypt encrypt
  simp only []
  rw [u64_split_u64_join _ _ hq.1 hq.2, feistel_rounds_reverse m m.round_keys (u64_split b),
    u64_join_split b hb]

/-! ### Claim C1 -/

/-- Claim C1: for every cipher key (8 32-bit words) and every 64-bit block
B, decrypting the encryption of B with the same engine returns B, both
directions running the 32 Feistel rounds over the round keys derived from
that key. -/
theorem c1_decrypt_encrypt_round_trip (key : List Nat) (b : Nat)
    (hkey_len : key.length = 8) (hkey : ∀ w ∈ key, w < 2 ^ 32) (hb : b < 2 ^ 64) :
    decrypt (with_key key) (encrypt (with_key key) b) = b :=
  decrypt_encrypt (with_key key) b hb

/-- Witness for C1 at the RFC 8891 key and plaintext. -/
theorem c1_witness :
    decrypt (with_key CIPHER_KEY_RFC8891)
      (encrypt (with_key CIPHER_KEY_RFC8891) 0xfedcba9876543210) = 0xfedcba9876543210 :=
  c1_decrypt_encrypt_round_trip CIPHER_KEY_RFC8891 0xfedcba9876543210 (by decide)
    (by decide) (by decide)

/-! ### Claim C2 -/

/-- The rejoin order asserted by claim C2, word for word: the final value of
the half that started as the HIGH half (bits 63..32 — the first component of
the round-state pair) is placed in the high 32 bits of the result, the final
low half in the low 32 bits. -/
def encrypt_high_first (m : Magma) (block_in : Nat) : Nat :=
  let p := feistel_rounds m m.round_keys (u64_split block_in)
  (p.1 <<< 32) ||| p.2

set_option maxRecDepth 100000 in
/-- Claim C2 counterexample: at the RFC 8891 key and plaintext the value
returned by `encrypt` is NOT `(final high half << 32) | final low half`;
`u64_join` places its first argument (the high-half variable `a_1`) in the
LOW 32 bits.  Here `encrypt` returns `0x4ee901e5c2d8ca3d` while the claimed
join order would give `0xc2d8ca3d4ee901e5`. -/
theorem c2_counterexample :
    encrypt (with_key CIPHER_KEY_RFC8891) 0xfedcba9876543210 ≠
      encrypt_high_first (with_key CIPHER_KEY_RFC8891) 0xfedcba9876543210 := by
  decide

/-- Claim C2 amended: `encrypt` splits the block into the high half (bits
63..32) and the low half, folds `transformation_big_g` over
`round_keys[0..32]` in ascending index order, and returns
`(final LOW half << 32) | final HIGH half` — the halves are swapped by the
final join (the classic omitted last-round swap). -/
theorem c2_split_rounds_join (m : Magma) (block_in : Nat) :
    encrypt m block_in =
      ((feistel_rounds m m.round_keys ((block_in >>> 32) % 2 ^ 32, block_in % 2 ^ 32)).2
          <<< 32) |||
        (feistel_rounds m m.round_keys ((block_in >>> 32) % 2 ^ 32, block_in % 2 ^ 32)).1 :=
  rfl

/-! ### Claim C9 -/

set_option maxRecDepth 100000 in
/-- Claim C9: the RFC 8891 single-block test vector and the GOST R
34.13-2015 MAC test vector, evaluated on the embedding.  The MAC chain is
evaluated one block encryption at a time (the intermediate values are the
ones printed in GOST R 34.13-2015, A.2.6). -/
theorem c9_test_vectors :
    encrypt (with_key CIPHER_KEY_RFC8891) 0xfedcba9876543210 = 0x4ee901e5c2d8ca3d ∧
    cipher_mac (with_key CIPHER_KEY_RFC8891)
      (to_be_bytes 0x92def06b3c130a59 ++ to_be_bytes 0xdb54c704f8189d20 ++
        to_be_bytes 0x4a98fb2e67a8024c ++ to_be_bytes 0x8912409b17b57e41) = 0x154e7210 := by
  refine ⟨by decide, ?_⟩
  have hr : encrypt (with_key CIPHER_KEY_RFC8891) 0 = 0x2fa2cd99a1290a12 := by decide
  have h1 : encrypt (with_key CIPHER_KEY_RFC8891) 0x92def06b3c130a59 =
      0x2b073f0494f372a0 := by decide
  have h2 : encrypt (with_key CIPHER_KEY_RFC8891) 0xf053f8006cebef80 =
      0xc89ed814fd5e18e9 := by decide
  have h3 : encrypt (with_key CIPHER_KEY_RFC8891) 0x8206233a9af61aa5 =
      0xf739b18d34289b00 := by decide
  have h4 : encrypt (with_key CIPHER_KEY_RFC8891) 0x216e6a2561cff165 =
      0x154e72102030c5bb := by decide
  have hsub : generate_cmac_subkeys (with_key CIPHER_KEY_RFC8891) =
      (0x5f459b3342521424, 0xbe8b366684a42848) := by
    simp only [generate_cmac_subkeys]
    rw [hr]
    decide
  have hch : chunks8 (to_be_bytes 0x92def06b3c130a59 ++ to_be_bytes 0xdb54c704f8189d20 ++
      to_be_bytes 0x4a98fb2e67a8024c ++ to_be_bytes 0x8912409b17b57e41) =
      [to_be_bytes 0x92def06b3c130a59, to_be_bytes 0xdb54c704f8189d20,
       to_be_bytes 0x4a98fb2e67a8024c, to_be_bytes 0x8912409b17b57e41] := by decide
  have hlen : (to_be_bytes 0x92def06b3c130a59 ++ to_be_bytes 0xdb54c704f8189d20 ++
      to_be_bytes 0x4a98fb2e67a8024c ++ to_be_bytes 0x8912409b17b57e41).length = 32 := by
    decide
  have hp1 : padded_be_u64 (to_be_bytes 0x92def06b3c130a59) = 0x92def06b3c130a59 := by decide
  have hp2 : padded_be_u64 (to_be_bytes 0xdb54c704f8189d20) = 0xdb54c704f8189d20 := by decide
  have hp3 : padded_be_u64 (to_be_bytes 0x4a98fb2e67a8024c) = 0x4a98fb2e67a8024c := by decide
  have hlast : mac_last_block (to_be_bytes 0x8912409b17b57e41) = 0x8912409b17b57e41 := by
    decide
  have hx1 : padded_be_u64 (to_be_bytes 0x92def06b3c130a59) ^^^ 0 = 0x92def06b3c130a59 := by
    rw [hp1, Nat.xor_zero]
  have hx2 : padded_be_u64 (to_be_bytes 0xdb54c704f8189d20) ^^^ 0x2b073f0494f372a0 =
      0xf053f8006cebef80 := by rw [hp2]; decide
  have hx3 : padded_be_u64 (to_be_bytes 0x4a98fb2e67a8024c) ^^^ 0xc89ed814fd5e18e9 =
      0x8206233a9af61aa5 := by rw [hp3]; decide
  have hx4 : mac_last_block (to_be_bytes 0x8912409b17b57e41) ^^^ 0xf739b18d34289b00 ^^^
      0x5f459b3342521424 = 0x216e6a2561cff165 := by rw [hlast]; decide
  have hkn : cipher_mac (with_key CIPHER_KEY_RFC8891)
      (to_be_bytes 0x92def06b3c130a59 ++ to_be_bytes 0xdb54c704f8189d20 ++
        to_be_bytes 0x4a98fb2e67a8024c ++ to_be_bytes 0x8912409b17b57e41) =
      (u64_split (mac_go (with_key CIPHER_KEY_RFC8891)
        (generate_cmac_subkeys (with_key CIPHER_KEY_RFC8891)).1
        (chunks8 (to_be_bytes 0x92def06b3c130a59 ++ to_be_bytes 0xdb54c704f8189d20 ++
          to_be_bytes 0x4a98fb2e67a8024c ++ to_be_bytes 0x8912409b17b57e41)) 0)).1 := by
    simp only [cipher_mac, hlen]
    norm_num
  rw [hkn, hsub, hch]
  show (u64_split (mac_go (with_key CIPHER_KEY_RFC8891) 0x5f459b3342521424
    [to_be_bytes 0x92def06b3c130a59, to_be_bytes 0xdb54c704f8189d20,
     to_be_bytes 0x4a98fb2e67a8024c, to_be_bytes 0x8912409b17b57e41] 0)).1 = 0x154e7210
  rw [show mac_go (with_key CIPHER_KEY_RFC8891) 0x5f459b3342521424
      [to_be_bytes 0x92def06b3c130a59, to_be_bytes 0xdb54c704f8189d20,
       to_be_bytes 0x4a98fb2e67a8024c, to_be_bytes 0x8912409b17b57e41] 0 =
    mac_go (with_key CIPHER_KEY_RFC8891) 0x5f459b3342521424
      [to_be_bytes 0xdb54c704f8189d20, to_be_bytes 0x4a98fb2e67a8024c,
       to_be_bytes 0x8912409b17b57e41]
      (encrypt (with_key CIPHER_KEY_RFC8891)
        (padded_be_u64 (to_be_bytes 0x92def06b3c130a59) ^^^ 0)) from rfl]
  rw [hx1, h1]
  rw [show mac_go (with_key CIPHER_KEY_RFC8891) 0x5f459b3342521424
      [to_be_bytes 0xdb54c704f8189d20, to_be_bytes 0x4a98fb2e67a8024c,
       to_be_bytes 0x8912409b17b57e41] 0x2b073f0494f372a0 =
    mac_go (with_key CIPHER_KEY_RFC8891) 0x5f459b3342521424
      [to_be_bytes 0x4a98fb2e67a8024c, to_be_bytes 0x8912409b17b57e41]
      (encrypt (with_key CIPHER_KEY_RFC8891)
        (padded_be_u64 (to_be_bytes 0xdb54c704f8189d20) ^^^ 0x2b073f0494f372a0)) from rfl]
  rw [hx2, h2]
  rw [show mac_go (with_key CIPHER_KEY_RFC8891) 0x5f459b3342521424
      [to_be_bytes 0x4a98fb2e67a8024c, to_be_bytes 0x8912409b17b57e41] 0xc89ed814fd5e18e9 =
    mac_go (with_key CIPHER_KEY_RFC8891) 0x5f459b3342521424
      [to_be_bytes 0x8912409b17b57e41]
      (encrypt (with_key CIPHER_KEY_RFC8891)
        (padded_be_u64 (to_be_bytes 0x4a98fb2e67a8024c) ^^^ 0xc89ed814fd5e18e9)) from rfl]
  rw [hx3, h3]
  rw [show mac_go (with_key CIPHER_KEY_RFC8891) 0x5f459b3342521424
      [to_be_bytes 0x8912409b17b57e41] 0xf739b18d34289b00 =
    encrypt (with_key CIPHER_KEY_RFC8891)
      (mac_last_block (to_be_bytes 0x8912409b17b57e41) ^^^ 0xf739b18d34289b00 ^^^
        0x5f459b3342521424) from rfl]
  rw [hx4, h4]
  decide

/-! ### Claim C10 -/

/-- Claim C10: the MAC of the empty message is `0` for EVERY engine state
(key and substitution box): the chunk loop never runs, the feedback stays
`0`, and the tag is its high half — in particular the result is identical
across any two engines. -/
theorem c10_mac_of_empty_message (m m2 : Magma) :
    cipher_mac m [] = 0 ∧ cipher_mac m [] = cipher_mac m2 [] := by
  have h : ∀ mm : Magma, cipher_mac mm [] = 0 := by
    intro mm
    simp [cipher_mac, chunks8, mac_go, u64_split]
  exact ⟨h m, by rw [h m, h m2]⟩

/-! ### Claim C3 -/

/-- The index pattern claimed for the round-key schedule: positions 0–23
hold `cipher_key[i mod 8]`, positions 24–31 hold `cipher_key[7 - j]`. -/
def round_key_pattern_holds (round_keys cipher_key : List Nat) : Prop :=
  (∀ i, i < 24 → round_keys.getD i 0 = cipher_key.getD (i % 8) 0) ∧
  ∀ j, j < 8 → round_keys.getD (24 + j) 0 = cipher_key.getD (7 - j) 0

theorem prepare_round_keys_pattern (ck : List Nat) :
    round_key_pattern_holds (ROUND_KEY_POSITION.map (fun p => ck.getD p 0)) ck := by
  constructor
  · intro i hi
    interval_cases i <;> rfl
  · intro j hj
    interval_cases j <;> rfl

/-- Claim C3: after `set_key` (hence also `with_key`, which is
`set_key` on a fresh engine) and after a successful `set_key_from_bytes`,
the 32 round keys follow the fixed pattern: indices `0..7` of the cipher
key repeated three times, then reversed. -/
theorem c3_round_key_schedule (m : Magma) (key : List Nat) (hlen : key.length = 8) :
    round_key_pattern_holds (set_key m key).round_keys (set_key m key).cipher_key ∧
    ∀ bytes m2, set_key_from_bytes m bytes = some m2 →
      round_key_pattern_holds m2.round_keys m2.cipher_key := by
  constructor
  · exact prepare_round_keys_pattern key
  · intro bytes m2 h
    simp only [set_key_from_bytes] at h
    by_cases hb : bytes.length = 32
    · rw [if_pos hb] at h
      obtain rfl := Option.some.inj h
      exact prepare_round_keys_pattern _
    · rw [if_neg hb] at h
      exact Option.noConfusion h

/-- Witness for C3: position 24 of the schedule derived from the RFC 8891
key holds key word 7. -/
theorem c3_witness :
    (set_key Magma.new CIPHER_KEY_RFC8891).round_keys.getD (24 + 0) 0 =
      (set_key Magma.new CIPHER_KEY_RFC8891).cipher_key.getD (7 - 0) 0 :=
  (c3_round_key_schedule Magma.new CIPHER_KEY_RFC8891 (by decide)).1.2 0 (by decide)

/-! ### Claim C4 -/

/-- The nibble transform as worded by claim C4: split the input into eight
4-bit nibbles, least-significant first (`a / 16 ^ i % 16`), substitute
nibble `i` through sub-table `i` (entries `16 i .. 16 i + 15`), and
reassemble in the same nibble order (weight `16 ^ i`). -/
def t_nibble_sum (m : Magma) (a : Nat) : Nat :=
  ((List.range 8).map
    (fun i => m.substitution_box.getD (i * 16 + a / 16 ^ i % 16) 0 * 16 ^ i)).sum

/-- Left rotation of a 32-bit value by 11, as worded by claim C4: low bits
shifted up modulo `2 ^ 32` plus the top 11 bits wrapped to the bottom. -/
def rotl11 (x : Nat) : Nat :=
  x * 2 ^ 11 % 2 ^ 32 + x / 2 ^ 21

theorem and_fifteen (x : Nat) : x &&& 15 = x % 16 := by
  have h := Nat.and_pow_two_sub_one_eq_mod x 4
  norm_num at h
  exact h

theorem sbox_getD_lt (m : Magma) (hbox : ∀ s ∈ m.substitution_box, s < 16) (idx : Nat) :
    m.substitution_box.getD idx 0 < 16 := by
  rw [List.getD_eq_getElem?_getD]
  cases h : m.substitution_box[idx]? with
  | none => norm_num
  | some v =>
    simp only [Option.getD_some]
    exact hbox v (List.getElem?_mem h)

theorem foldl_or_eq_sum (g : Nat → Nat) (hg : ∀ i, g i < 16) :
    ∀ n, (List.range n).foldl (fun res i => res ||| g i * 16 ^ i) 0 =
        ((List.range n).map (fun i => g i * 16 ^ i)).sum ∧
      ((List.range n).map (fun i => g i * 16 ^ i)).sum < 16 ^ n := by
  intro n
  induction n with
  | zero => simp
  | succ n ih =>
    rw [List.range_succ, List.foldl_append, List.map_append, List.sum_append, ih.1]
    have hterm : g n * 16 ^ n ≤ 15 * 16 ^ n := Nat.mul_le_mul_right _ (by have := hg n; omega)
    have hpow : (16 : Nat) ^ (n + 1) = 16 ^ n + 15 * 16 ^ n := by ring
    have hor : ((List.range n).map (fun i => g i * 16 ^ i)).sum ||| g n * 16 ^ n =
        g n * 16 ^ n + ((List.range n).map (fun i => g i * 16 ^ i)).sum := by
      rw [Nat.lor_comm, Nat.mul_comm (g n)]
      have h16 : (16 : Nat) ^ n = 2 ^ (4 * n) := by
        rw [Nat.pow_mul]
      rw [h16] at ih ⊢
      exact (Nat.mul_add_lt_is_or ih.2 (g n)).symm
    constructor
    · simp only [List.foldl_cons, List.foldl_nil, List.map_cons, List.map_nil, List.sum_cons,
        List.sum_nil]
      omega
    · simp only [List.map_cons, List.map_nil, List.sum_cons, List.sum_nil]
      omega

theorem transformation_t_eq_sum (m : Magma) (a : Nat)
    (hbox : ∀ s ∈ m.substitution_box, s < 16) :
    transformation_t m a = t_nibble_sum m a := by
  unfold transformation_t t_nibble_sum
  rw [List.foldl_ext _
    (fun res i => res ||| m.substitution_box.getD (i * 16 + a / 16 ^ i % 16) 0 * 16 ^ i) 0
    (by
      intro res i hi
      have hi8 : i < 8 := List.mem_range.mp hi
      have h16i : (16 : Nat) ^ i = 2 ^ (4 * i) := by rw [Nat.pow_mul]
      have hS := sbox_getD_lt m hbox (i * 16 + a / 16 ^ i % 16)
      have hnib : (a >>> (4 * i)) &&& 0xF = a / 16 ^ i % 16 := by
        rw [and_fifteen, Nat.shiftRight_eq_div_pow, h16i]
      have hlt : m.substitution_box.getD (i * 16 + a / 16 ^ i % 16) 0 * 16 ^ i < 2 ^ 32 := by
        calc m.substitution_box.getD (i * 16 + a / 16 ^ i % 16) 0 * 16 ^ i
            ≤ 15 * 16 ^ 7 :=
              Nat.mul_le_mul (by omega) (Nat.pow_le_pow_right (by norm_num) (by omega))
          _ < 2 ^ 32 := by norm_num
      rw [hnib, Nat.shiftLeft_eq, ← h16i, Nat.mod_eq_of_lt hlt])]
  exact (foldl_or_eq_sum _ (fun i => sbox_getD_lt m hbox _) 8).1

theorem rotateLeft32_eq_rotl11 (x : Nat) (hx : x < 2 ^ 32) :
    rotateLeft32 x 11 = rotl11 x := by
  unfold rotateLeft32 rotl11
  rw [Nat.shiftLeft_eq, Nat.shiftRight_eq_div_pow]
  have h21 : (32 - 11 : Nat) = 21 := by norm_num
  rw [h21]
  have h1 : x * 2 ^ 11 % 2 ^ 32 = 2 ^ 11 * (x % 2 ^ 21) := by
    rw [Nat.mul_comm x]
    have h32 : (2 : Nat) ^ 32 = 2 ^ 11 * 2 ^ 21 := by norm_num
    rw [h32, Nat.mul_mod_mul_left]
  have h2 : x / 2 ^ 21 < 2 ^ 11 := by
    apply Nat.div_lt_of_lt_mul
    calc x < 2 ^ 32 := hx
      _ = 2 ^ 21 * 2 ^ 11 := by norm_num
  rw [h1]
  exact (Nat.mul_add_lt_is_or h2 (x % 2 ^ 21)).symm

/-- Claim C4: for every 4-bit-valued substitution box, every 32-bit key
word `k` and input `a`, the round transform computes
`T((k + a) mod 2 ^ 32)` rotated left by 11 bits, where `T` substitutes the
eight low-order-first nibbles through the corresponding sub-tables and
reassembles them in place; the addition wraps modulo `2 ^ 32`. -/
theorem c4_transformation_g_spec (m : Magma) (k a : Nat)
    (hbox : ∀ s ∈ m.substitution_box, s < 16) (hk : k < 2 ^ 32) (ha : a < 2 ^ 32) :
    transformation_g m k a = rotl11 (t_nibble_sum m ((k + a) % 2 ^ 32)) ∧
    transformation_t m a = t_nibble_sum m a := by
  constructor
  · unfold transformation_g
    have hlt := transformation_t_lt m ((k + a) % 2 ^ 32)
    rw [transformation_t_eq_sum m _ hbox] at hlt ⊢
    exact rotateLeft32_eq_rotl11 _ hlt
  · exact transformation_t_eq_sum m a hbox

set_option maxRecDepth 100000 in
/-- Witness for C4 at the RFC 8891 test values for `g`. -/
theorem c4_witness :
    transformation_g Magma.new 0x87654321 0xfedcba98 =
      rotl11 (t_nibble_sum Magma.new ((0x87654321 + 0xfedcba98) % 2 ^ 32)) ∧
    transformation_t Magma.new 0xfedcba98 = t_nibble_sum Magma.new 0xfedcba98 :=
  c4_transformation_g_spec Magma.new 0x87654321 0xfedcba98 (by decide) (by decide) (by decide)

/-! ### Structure of `chunks8` -/

theorem length_lt_eight_of_no_eight_prefix {α : Type} (l : List α)
    (h2 : ∀ (a1 a2 a3 a4 a5 a6 a7 a8 : α) (rest : List α),
      l = a1 :: a2 :: a3 :: a4 :: a5 :: a6 :: a7 :: a8 :: rest → False) :
    l.length < 8 := by
  rcases l with _ | ⟨a1, l⟩; · simp
  rcases l with _ | ⟨a2, l⟩; · simp
  rcases l with _ | ⟨a3, l⟩; · simp
  rcases l with _ | ⟨a4, l⟩; · simp
  rcases l with _ | ⟨a5, l⟩; · simp
  rcases l with _ | ⟨a6, l⟩; · simp
  rcases l with _ | ⟨a7, l⟩; · simp
  rcases l with _ | ⟨a8, l⟩; · simp
  exact absurd rfl (h2 a1 a2 a3 a4 a5 a6 a7 a8 l)

theorem chunks8_sum_length {α : Type} : ∀ (l : List α),
    ((chunks8 l).map List.length).sum = l.length := by
  intro l
  induction l using chunks8.induct with
  | case1 => simp [chunks8]
  | case2 a1 a2 a3 a4 a5 a6 a7 a8 rest ih => simp [chunks8, ih]; omega
  | case3 l h1 h2 => simp [chunks8]

theorem chunks8_count {α : Type} : ∀ (l : List α),
    (chunks8 l).length = (l.length + 7) / 8 := by
  intro l
  induction l using chunks8.induct with
  | case1 => simp [chunks8]
  | case2 a1 a2 a3 a4 a5 a6 a7 a8 rest ih => simp [chunks8, ih]; omega
  | case3 l h1 h2 =>
    have hlt := length_lt_eight_of_no_eight_prefix l h2
    have hne : l.length ≠ 0 := by
      intro h0
      exact h1 (List.length_eq_zero.mp h0)
    simp [chunks8]
    omega

theorem chunks8_mem_length_le {α : Type} : ∀ (l : List α), ∀ c ∈ chunks8 l, c.length ≤ 8 := by
  intro l
  induction l using chunks8.induct with
  | case1 => simp [chunks8]
  | case2 a1 a2 a3 a4 a5 a6 a7 a8 rest ih =>
    intro c hc
    simp only [chunks8, List.mem_cons] at hc
    rcases hc with rfl | hc
    · simp
    · exact ih c hc
  | case3 l h1 h2 =>
    intro c hc
    have hlt := length_lt_eight_of_no_eight_prefix l h2
    simp [chunks8] at hc
    subst hc
    omega

theorem chunks8_ne_nil {α : Type} (l : List α) (h : l ≠ []) : chunks8 l ≠ [] := by
  intro hc
  have hcount := chunks8_count l
  rw [hc] at hcount
  simp at hcount
  have : l.length = 0 := by omega
  exact h (List.length_eq_zero.mp this)

/-! ### Claim C5 -/

/-- The chunk loop of `cipher_mac` in split form: all chunks but the last
are absorbed by `feedback := encrypt(chunk XOR feedback)`, then the last
chunk (padded if short) is XORed with both the feedback and the subkey and
encrypted. -/
theorem mac_go_eq_split (m : Magma) (k_n : Nat) :
    ∀ (cs : List (List Nat)), cs ≠ [] → ∀ fb : Nat,
      mac_go m k_n cs fb =
        encrypt m (mac_last_block (cs.getLastD []) ^^^
          cs.dropLast.foldl (fun f c => encrypt m (padded_be_u64 c ^^^ f)) fb ^^^ k_n)
  | [], h => absurd rfl h
  | [c], _ => by
      intro fb
      simp [mac_go]
  | c :: c2 :: rest, _ => by
      intro fb
      have ih := mac_go_eq_split m k_n (c2 :: rest) (by simp)
      simp only [mac_go]
      rw [ih]
      simp [List.getLastD_eq_getLast?, List.getLast?_cons_cons, List.dropLast_cons₂]

/-- Claim C5: for every nonempty message, `cipher_mac` computes the tag by
CMAC subkey doubling (`generate_cmac_subkeys`), selecting `K1` exactly when
the length is a multiple of 8 bytes, folding `feedback :=
encrypt(chunk XOR feedback)` from `0` over every chunk except the last,
padding a short last chunk with `0x80` then zeros (`mac_last_block`), XORing
the last block with both the feedback and the selected subkey before the
final `encrypt`, and returning the high 32 bits of that result. -/
theorem c5_cipher_mac_structure (m : Magma) (msg : List Nat) (hne : msg ≠ []) :
    cipher_mac m msg =
      (u64_split (encrypt m
        (mac_last_block ((chunks8 msg).getLastD []) ^^^
          (chunks8 msg).dropLast.foldl
            (fun fb c => encrypt m (padded_be_u64 c ^^^ fb)) 0 ^^^
          (if 8 ∣ msg.length then (generate_cmac_subkeys m).1
            else (generate_cmac_subkeys m).2)))).1 := by
  have hcs := chunks8_ne_nil msg hne
  simp only [cipher_mac]
  rw [mac_go_eq_split m _ (chunks8 msg) hcs 0]
  have hif : (if msg.length % 8 = 0 then (generate_cmac_subkeys m).1
      else (generate_cmac_subkeys m).2) =
      (if 8 ∣ msg.length then (generate_cmac_subkeys m).1
      else (generate_cmac_subkeys m).2) := by
    simp [Nat.dvd_iff_mod_eq_zero]
  rw [hif]

/-- Witness for C5 on a short 3-byte message under the RFC 8891 key. -/
theorem c5_witness :
    cipher_mac (with_key CIPHER_KEY_RFC8891) [1, 2, 3] =
      (u64_split (encrypt (with_key CIPHER_KEY_RFC8891)
        (mac_last_block ((chunks8 [1, 2, 3]).getLastD []) ^^^
          (chunks8 [1, 2, 3]).dropLast.foldl
            (fun fb c => encrypt (with_key CIPHER_KEY_RFC8891) (padded_be_u64 c ^^^ fb)) 0 ^^^
          (if 8 ∣ ([1, 2, 3] : List Nat).length
            then (generate_cmac_subkeys (with_key CIPHER_KEY_RFC8891)).1
            else (generate_cmac_subkeys (with_key CIPHER_KEY_RFC8891)).2)))).1 :=
  c5_cipher_mac_structure (with_key CIPHER_KEY_RFC8891) [1, 2, 3] (by decide)

/-! ### Claim C6 -/

theorem cipher_ecb_length (m : Magma) (f : Magma → Nat → Nat) (buf : List Nat) :
    (cipher_ecb m f buf).length = (chunks8 buf).length * 8 := by
  unfold cipher_ecb
  rw [List.length_flatten, List.map_map]
  have h : ∀ (cs : List (List Nat)),
      (cs.map (List.length ∘ fun chunk => to_be_bytes (f m (padded_be_u64 chunk)))).sum =
        cs.length * 8 := by
    intro cs
    induction cs with
    | nil => simp
    | cons c cst ih =>
      simp only [List.map_cons, List.sum_cons, ih, List.length_cons]
      have hc : (List.length ∘ fun chunk => to_be_bytes (f m (padded_be_u64 chunk))) c = 8 :=
        rfl
      rw [hc]
      omega
  exact h (chunks8 buf)

theorem ctr_go_length (m : Magma) (seed : Nat) :
    ∀ (cs : List (List Nat)), (∀ c ∈ cs, c.length ≤ 8) → ∀ idx,
      (ctr_go m seed idx cs).length = (cs.map List.length).sum := by
  intro cs
  induction cs with
  | nil => intro h idx; simp [ctr_go]
  | cons c cst ih =>
    intro h idx
    have hc : c.length ≤ 8 := h c (List.mem_cons_self c cst)
    simp only [ctr_go, List.length_append, List.length_take, List.map_cons, List.sum_cons]
    rw [ih (fun x hx => h x (List.mem_cons_of_mem c hx)) (idx + 1)]
    simp only [to_be_bytes, List.length_cons, List.length_nil]
    omega

theorem cipher_ctr_length (m : Magma) (buf : List Nat) :
    (cipher_ctr m buf).length = buf.length := by
  unfold cipher_ctr
  rw [ctr_go_length m _ (chunks8 buf) (chunks8_mem_length_le buf) 0, chunks8_sum_length]

theorem cfb_encrypt_blocks_some (m : Magma) :
    ∀ (cs : List (List Nat)) (reg : List Nat), reg ≠ [] → (∀ c ∈ cs, c.length ≤ 8) →
      ∃ out, cfb_encrypt_blocks m cs reg = some out ∧
        out.length = (cs.map List.length).sum := by
  intro cs
  induction cs with
  | nil => intro reg hreg hlen; exact ⟨[], rfl, by simp⟩
  | cons c cst ih =>
    intro reg hreg hlen
    match reg, hreg with
    | front :: tail, _ =>
      have hc : c.length ≤ 8 := hlen c (List.mem_cons_self c cst)
      obtain ⟨out, hout, houtlen⟩ := ih (tail ++ [encrypt m front ^^^ padded_be_u64 c])
        (by simp) (fun x hx => hlen x (List.mem_cons_of_mem c hx))
      refine ⟨(to_be_bytes (encrypt m front ^^^ padded_be_u64 c)).take c.length ++ out,
        ?_, ?_⟩
      · rw [show cfb_encrypt_blocks m (c :: cst) (front :: tail) =
            (cfb_encrypt_blocks m cst (tail ++ [encrypt m front ^^^ padded_be_u64 c])).map
              (fun t => (to_be_bytes (encrypt m front ^^^ padded_be_u64 c)).take c.length
                ++ t) from rfl]
        rw [hout]
        rfl
      · simp only [List.length_append, List.length_take, houtlen, List.map_cons,
          List.sum_cons, to_be_bytes, List.length_cons, List.length_nil]
        omega

theorem cfb_decrypt_blocks_some (m : Magma) :
    ∀ (cs : List (List Nat)) (reg : List Nat), reg ≠ [] → (∀ c ∈ cs, c.length ≤ 8) →
      ∃ out, cfb_decrypt_blocks m cs reg = some out ∧
        out.length = (cs.map List.length).sum := by
  intro cs
  induction cs with
  | nil => intro reg hreg hlen; exact ⟨[], rfl, by simp⟩
  | cons c cst ih =>
    intro reg hreg hlen
    match reg, hreg with
    | front :: tail, _ =>
      have hc : c.length ≤ 8 := hlen c (List.mem_cons_self c cst)
      obtain ⟨out, hout, houtlen⟩ := ih (tail ++ [padded_be_u64 c])
        (by simp) (fun x hx => hlen x (List.mem_cons_of_mem c hx))
      refine ⟨(to_be_bytes (encrypt m front ^^^ padded_be_u64 c)).take c.length ++ out,
        ?_, ?_⟩
      · rw [show cfb_decrypt_blocks m (c :: cst) (front :: tail) =
            (cfb_decrypt_blocks m cst (tail ++ [padded_be_u64 c])).map
              (fun t => (to_be_bytes (encrypt m front ^^^ padded_be_u64 c)).take c.length
                ++ t) from rfl]
        rw [hout]
        rfl
      · simp only [List.length_append, List.length_take, houtlen, List.map_cons,
          List.sum_cons, to_be_bytes, List.length_cons, List.length_nil]
        omega

/-- Claim C6: on a buffer whose length is not a multiple of 8, ECB emits a
full 8-byte block per chunk (output length rounded up to the next multiple
of 8), while CTR and CFB emit exactly `chunk.len()` bytes per chunk (output
length equal to the input length, CFB requiring its non-empty IV). -/
theorem c6_partial_block_lengths (m : Magma) (f : Magma → Nat → Nat) (buf : List Nat)
    (hlen : buf.length % 8 ≠ 0) :
    (cipher_ecb m f buf).length = (buf.length + 7) / 8 * 8 ∧
    (cipher_ctr m buf).length = buf.length ∧
    (m.iv ≠ [] → ∃ o1 o2, cfb_encrypt m buf = some o1 ∧ o1.length = buf.length ∧
      cfb_decrypt m buf = some o2 ∧ o2.length = buf.length) := by
  refine ⟨?_, cipher_ctr_length m buf, ?_⟩
  · rw [cipher_ecb_length, chunks8_count]
  · intro hiv
    obtain ⟨o1, h1, h1l⟩ :=
      cfb_encrypt_blocks_some m (chunks8 buf) m.iv hiv (chunks8_mem_length_le buf)
    obtain ⟨o2, h2, h2l⟩ :=
      cfb_decrypt_blocks_some m (chunks8 buf) m.iv hiv (chunks8_mem_length_le buf)
    refine ⟨o1, o2, ?_, ?_, ?_, ?_⟩
    · unfold cfb_encrypt; rw [if_neg hiv]; exact h1
    · rw [h1l, chunks8_sum_length]
    · unfold cfb_decrypt; rw [if_neg hiv]; exact h2
    · rw [h2l, chunks8_sum_length]

/-- Witness for C6 on a 3-byte buffer. -/
theorem c6_witness :
    (cipher_ecb (set_iv (with_key CIPHER_KEY_RFC8891) [5]) encrypt [1, 2, 3]).length = 8 ∧
    (cipher_ctr (set_iv (with_key CIPHER_KEY_RFC8891) [5]) [1, 2, 3]).length = 3 ∧
    (cfb_encrypt (set_iv (with_key CIPHER_KEY_RFC8891) [5]) [1, 2, 3]).isSome = true := by
  have h := c6_partial_block_lengths (set_iv (with_key CIPHER_KEY_RFC8891) [5]) encrypt
    [1, 2, 3] (by decide)
  refine ⟨h.1, h.2.1, ?_⟩
  obtain ⟨o1, o2, h1, _, _, _⟩ := h.2.2 (by decide)
  rw [h1]
  rfl

/-! ### Claim C7 -/

/-- Claim C7: per chunk, CFB pops the front of the shift register,
encrypts it and XORs with the input block to form the output block;
`cfb::encrypt` pushes the OUTPUT block to the back of the register while
`cfb::decrypt` pushes the INPUT block; and with a non-empty IV both
directions process every buffer to completion (the register never runs
dry). -/
theorem c7_cfb_register_feedback (m : Magma) (buf : List Nat) (chunk : List Nat)
    (rest : List (List Nat)) (front : Nat) (tail : List Nat) (hiv : m.iv ≠ []) :
    cfb_encrypt_blocks m (chunk :: rest) (front :: tail) =
      (cfb_encrypt_blocks m rest (tail ++ [encrypt m front ^^^ padded_be_u64 chunk])).map
        (fun t => (to_be_bytes (encrypt m front ^^^ padded_be_u64 chunk)).take chunk.length
          ++ t) ∧
    cfb_decrypt_blocks m (chunk :: rest) (front :: tail) =
      (cfb_decrypt_blocks m rest (tail ++ [padded_be_u64 chunk])).map
        (fun t => (to_be_bytes (encrypt m front ^^^ padded_be_u64 chunk)).take chunk.length
          ++ t) ∧
    (cfb_encrypt m buf).isSome = true ∧ (cfb_decrypt m buf).isSome = true := by
  refine ⟨rfl, rfl, ?_, ?_⟩
  · obtain ⟨o, ho, _⟩ :=
      cfb_encrypt_blocks_some m (chunks8 buf) m.iv hiv (chunks8_mem_length_le buf)
    unfold cfb_encrypt
    rw [if_neg hiv, ho]
    rfl
  · obtain ⟨o, ho, _⟩ :=
      cfb_decrypt_blocks_some m (chunks8 buf) m.iv hiv (chunks8_mem_length_le buf)
    unfold cfb_decrypt
    rw [if_neg hiv, ho]
    rfl

/-- Witness for C7 on a 3-byte buffer with a one-block IV. -/
theorem c7_witness :
    (cfb_decrypt (set_iv (with_key CIPHER_KEY_RFC8891) [5]) [1, 2, 3]).isSome = true :=
  (c7_cfb_register_feedback (set_iv (with_key CIPHER_KEY_RFC8891) [5]) [1, 2, 3] [] [] 0 []
    (by decide)).2.2.2

/-! ### Claim C8 -/

/-- Claim C8 counterexample: invoking the dispatch with the Encrypt
operation and MAC mode hits `panic!` in `Magma::cipher` (modelled as
`none`), so the claim that configuration misuse "never panics" and "yields
an explicit failure result rather than a crash" is false of this code. -/
theorem c8_counterexample :
    cipher Magma.new [] CipherOperation.Encrypt CipherMode.MAC = none := rfl

/-- Claim C8 amended: each configuration misuse — a key byte slice whose
length is not 32 in `set_key_from_bytes` (`assert!`), an invalid
operation/mode pairing in `cipher` (`panic!`), or CFB invoked with an empty
IV — ABORTS VIA A PANIC, producing no output buffer; the reference code
panics instead of returning an explicit failure result. -/
theorem c8_misuse_panics (m : Magma) (buf bytes : List Nat)
    (hbytes : bytes.length ≠ 32) (hiv : m.iv = []) :
    cipher m buf CipherOperation.Encrypt CipherMode.MAC = none ∧
    cipher m buf CipherOperation.Decrypt CipherMode.MAC = none ∧
    cipher m buf CipherOperation.MessageAuthentication CipherMode.ECB = none ∧
    set_key_from_bytes m bytes = none ∧
    cfb_encrypt m buf = none ∧
    cfb_decrypt m buf = none := by
  refine ⟨rfl, rfl, rfl, ?_, ?_, ?_⟩
  · simp [set_key_from_bytes, hbytes]
  · simp [cfb_encrypt, hiv]
  · simp [cfb_decrypt, hiv]

/-- Witness for C8: a fresh engine (empty IV), a 1-byte key slice and a
1-byte buffer. -/
theorem c8_witness :
    cipher Magma.new [1] CipherOperation.Encrypt CipherMode.MAC = none ∧
    cipher Magma.new [1] CipherOperation.Decrypt CipherMode.MAC = none ∧
    cipher Magma.new [1] CipherOperation.MessageAuthentication CipherMode.ECB = none ∧
    set_key_from_bytes Magma.new [1] = none ∧
    cfb_encrypt Magma.new [1] = none ∧
    cfb_decrypt Magma.new [1] = none :=
  c8_misuse_panics Magma.new [1] [1] (by decide) (by decide)
